import Mathlib

/-!
# Verification of the voice-chat coordination core

Shallow embedding of the repository's coordination logic:

* `TopologyManager` (src/unnamed/part_000): mesh/host decision from peer count.
* `HostElection` (src/unnamed/part_001): deterministic scoring-based election,
  hysteresis-based host replacement.
* `MeshConnection` (src/packages/client-core/src/ChatManager.ts, second file of
  the bundle): the connection orchestrator — peer-link registry, host
  assignment, star collapse, retry-on-close policy.

JavaScript numbers are modelled as `ℚ` (all the arithmetic the scoring code
performs is exact on the values it manipulates), 32-bit-integer coercions
(`hash & hash`, `<<`) are modelled explicitly with `toInt32`, and JS string
sorting (`Array.prototype.sort` default comparator, code-unit lexicographic) is
modelled on `Char.toNat` (identical on the BMP / ASCII ids the app generates).
`Map` objects are modelled as association lists with JS `Map.set`/`delete`
semantics, or as lookup functions `String → Option _` where only lookup is used.
-/

namespace VoiceChat

/-! ## TopologyManager (src/unnamed/part_000) -/

inductive TopologyType where
  | mesh
  | host
deriving DecidableEq, Repr

/-- Mutable state of `TopologyManager`: current topology, last peer count and
the configuration (`meshThreshold`, default 4). -/
structure TopologyManager where
  currentTopology : TopologyType
  peerCount : Nat
  meshThreshold : Nat
deriving DecidableEq, Repr

/-- Constructor default: topology `mesh`, count 0, threshold 4. -/
def TopologyManager.init : TopologyManager :=
  { currentTopology := .mesh, peerCount := 0, meshThreshold := 4 }

/-- `determineTopology`: total participants = peerCount + 1 (self); mesh iff
total ≤ meshThreshold. -/
def determineTopology (tm : TopologyManager) (peerCount : Nat) : TopologyType :=
  if peerCount + 1 ≤ tm.meshThreshold then .mesh else .host

/-- `updatePeerCount(count)`: stores the count, switches (and would notify) iff
the derived topology differs from the stored one, returns the new topology. -/
def updatePeerCount (tm : TopologyManager) (count : Nat) :
    TopologyManager × TopologyType :=
  let newTopology := determineTopology tm count
  ({ tm with peerCount := count, currentTopology := newTopology }, newTopology)

/-! ## HostElection (src/unnamed/part_001) -/

inductive NatType where
  | open_
  | moderate
  | strict
  | unknown
deriving DecidableEq, Repr

inductive Platform where
  | desktop
  | web
  | mobile
  | unknown
deriving DecidableEq, Repr

/-- `PeerConnectionStats` (the `peerId` field is never read by the scoring
code, so it is omitted). -/
structure PeerConnectionStats where
  latency : ℚ
  packetLoss : ℚ
  jitter : ℚ
  bandwidth : ℚ
deriving DecidableEq, Repr

/-- `PeerCapability` (again without the unread `peerId` field). -/
structure PeerCapability where
  natType : NatType
  platform : Platform
  bandwidth : ℚ
deriving DecidableEq, Repr

/-- The five axis scores of `HostScore.scores`. -/
structure HostSubscores where
  connectionQuality : ℚ
  natType : ℚ
  bandwidth : ℚ
  platform : ℚ
  tiebreaker : ℚ
deriving DecidableEq, Repr

structure HostScore where
  peerId : String
  totalScore : ℚ
  scores : HostSubscores
deriving DecidableEq, Repr

/-- ToInt32 (ECMAScript): wrap an integer into [-2^31, 2^31). This is what
`hash = hash & hash` and the `<<` operand coercion perform. -/
def toInt32 (z : ℤ) : ℤ :=
  (z + 2 ^ 31) % 2 ^ 32 - 2 ^ 31

/-- One step of the tiebreaker hash loop:
`hash = ((hash << 5) - hash) + charCode; hash = hash & hash`. -/
def jsHashStep (h : ℤ) (c : ℕ) : ℤ :=
  toInt32 (toInt32 (h * 32) - h + c)

/-- The `scoreTiebreaker` hash over the peer id's code units (code points and
UTF-16 units agree on the BMP). -/
def jsHash (s : String) : ℤ :=
  s.data.foldl (fun h ch => jsHashStep h ch.toNat) 0

/-- `scoreTiebreaker`: `Math.abs(hash % 100)`, JS `%` being truncated
remainder (`Int.tmod`). -/
def scoreTiebreaker (peerId : String) : ℚ :=
  (((jsHash peerId).tmod 100).natAbs : ℚ)

/-- `scoreConnectionQuality`: 50 when stats are missing, else a 0.4/0.4/0.2
combination of the latency, packet-loss and jitter sub-scores. -/
def scoreConnectionQuality (stats : Option PeerConnectionStats) : ℚ :=
  match stats with
  | none => 50
  | some s =>
      let latencyScore := max 0 (100 - s.latency / 200 * 100)
      let packetLossScore := max 0 (100 - s.packetLoss * 100 * 20)
      let jitterScore := max 0 (100 - s.jitter / 100 * 100)
      latencyScore * (4 / 10) + packetLossScore * (4 / 10) + jitterScore * (2 / 10)

/-- `scoreNATType`: open 100, moderate 60, strict 20, default 50 (covers both
`'unknown'` and a missing capability). -/
def scoreNATType (natType : Option NatType) : ℚ :=
  match natType with
  | some .open_ => 100
  | some .moderate => 60
  | some .strict => 20
  | _ => 50

/-- `scoreBandwidth`: the guard is JS falsiness (`!bandwidth`), so both a
missing value and the value 0 yield 50; otherwise ≥2000 → 100, <100 → 0,
else linear interpolation. -/
def scoreBandwidth (bandwidth : Option ℚ) : ℚ :=
  match bandwidth with
  | none => 50
  | some b =>
      if b = 0 then 50
      else if 2000 ≤ b then 100
      else if b < 100 then 0
      else (b - 100) / 1900 * 100

/-- `scorePlatform`: desktop 100, web 60, mobile 40, default 50. -/
def scorePlatform (platform : Option Platform) : ℚ :=
  match platform with
  | some .desktop => 100
  | some .web => 60
  | some .mobile => 40
  | _ => 50

/-- JS `a || b` on `number | undefined` operands: first operand unless it is
falsy (undefined or 0). Used for `capability?.bandwidth || stats?.bandwidth`. -/
def orFalsy (a b : Option ℚ) : Option ℚ :=
  match a with
  | some v => if v = 0 then b else some v
  | none => b

/-- `scorePeer`: the five axis scores and their weighted total
(weights 0.35 / 0.25 / 0.25 / 0.10 / 0.05). -/
def scorePeer (peerId : String) (stats : Option PeerConnectionStats)
    (capability : Option PeerCapability) : HostScore :=
  let scores : HostSubscores :=
    { connectionQuality := scoreConnectionQuality stats
      natType := scoreNATType (capability.map (·.natType))
      bandwidth := scoreBandwidth
        (orFalsy (capability.map (·.bandwidth)) (stats.map (·.bandwidth)))
      platform := scorePlatform (capability.map (·.platform))
      tiebreaker := scoreTiebreaker peerId }
  { peerId := peerId
    totalScore :=
      scores.connectionQuality * (35 / 100) +
      scores.natType * (25 / 100) +
      scores.bandwidth * (25 / 100) +
      scores.platform * (10 / 100) +
      scores.tiebreaker * (5 / 100)
    scores := scores }

/-- Stable insertion for descending order by `totalScore`: the element goes
in front of the first already-placed element whose total it matches or beats;
since insertion proceeds from the right of the input, an earlier input
element ends up before any equal-scoring later one. Folding this reproduces
`scores.sort((a, b) => b.totalScore - a.totalScore)`, which ECMAScript
guarantees to be stable. -/
def insertDesc (x : HostScore) : List HostScore → List HostScore
  | [] => [x]
  | y :: ys => if y.totalScore ≤ x.totalScore then x :: y :: ys
               else y :: insertDesc x ys

/-- Stable descending sort by `totalScore` (ties keep input order, as
ECMAScript `Array.prototype.sort` guarantees). -/
def sortByScoreDesc (l : List HostScore) : List HostScore :=
  l.foldr insertDesc []

/-- Lookup-function view of the `Map` arguments of the election API. -/
def StatsMap := String → Option PeerConnectionStats
def CapMap := String → Option PeerCapability

/-- `const scores = peers.map(peerId => this.scorePeer(...))`. -/
def scoresOf (peers : List String) (stats : StatsMap) (caps : CapMap) : List HostScore :=
  peers.map (fun p => scorePeer p (stats p) (caps p))

/-- `HostElection.electHost`: throws on an empty candidate list, returns the
sole candidate immediately, otherwise scores all candidates and returns the
head of the stable descending sort. -/
def electHost (peers : List String) (stats : StatsMap) (caps : CapMap) :
    Except String String :=
  match peers with
  | [] => .error "Cannot elect host: no peers available"
  | [p] => .ok p
  | _ =>
    match sortByScoreDesc (scoresOf peers stats caps) with
    | w :: _ => .ok w.peerId
    | [] => .error "unreachable: nonempty scores sort to nonempty"

/-- Result record of `shouldReplaceHost`. -/
structure ReplaceResult where
  shouldReplace : Bool
  newHostId : Option String
deriving DecidableEq, Repr

/-- `HostElection.shouldReplaceHost` (hysteresisThreshold defaults to 15 at
call sites): mandatory re-election when the incumbent is absent, otherwise the
best alternative replaces the incumbent only when its total score exceeds the
incumbent's by strictly more than the threshold. -/
def shouldReplaceHost (currentHostId : String) (peers : List String)
    (stats : StatsMap) (caps : CapMap) (hysteresisThreshold : ℚ) :
    Except String ReplaceResult :=
  if currentHostId ∈ peers then
    let currentHostScore := scorePeer currentHostId (stats currentHostId) (caps currentHostId)
    let alternativePeers := peers.filter (· ≠ currentHostId)
    match alternativePeers with
    | [] => .ok { shouldReplace := false, newHostId := none }
    | _ =>
      match electHost alternativePeers stats caps with
      | .error e => .error e
      | .ok bestAlternative =>
        let bestAlternativeScore :=
          scorePeer bestAlternative (stats bestAlternative) (caps bestAlternative)
        if hysteresisThreshold < bestAlternativeScore.totalScore - currentHostScore.totalScore
        then .ok { shouldReplace := true, newHostId := some bestAlternative }
        else .ok { shouldReplace := false, newHostId := none }
  else
    match electHost peers stats caps with
    | .error e => .error e
    | .ok newHostId => .ok { shouldReplace := true, newHostId := some newHostId }

/-! ## MeshConnection — the connection orchestrator
(src/packages/client-core/src/ChatManager.ts, `MeshConnection` class)

The embedding models the connection-graph bookkeeping: the `peers` registry
(a JS `Map` of peerId → `PeerConnectionInfo`, modelled as an association list
with `Map.set`/`Map.delete` semantics), the `peerUsernames` key set, the host
assignment, and the `destroy()` calls issued on underlying `SimplePeer`
objects (modelled as opaque numeric handles collected in `destroyed`).
Media streams, the `HostForwarder` and the signaling socket are external
collaborators and are not part of the modelled state. `updateTopology`'s
topology-change callback is modelled as the explicit events
`topologyBecameHost` / `topologyBecameMesh` delivered to the handler
(`handleTopologyChange`). -/

/-- One `PeerConnectionInfo` entry: the underlying connection object is an
opaque handle; `connected` and `retryCount` mirror the source fields. -/
structure Link where
  handle : Nat
  isInitiator : Bool
  connected : Bool
  retryCount : Nat
deriving DecidableEq, Repr

/-- The `peers` map: association list with JS `Map` semantics. -/
abbrev Registry := List (String × Link)

/-- JS `Map.get`. -/
def lookupKey : Registry → String → Option Link
  | [], _ => none
  | e :: t, k => if e.1 = k then some e.2 else lookupKey t k

/-- JS `Map.set`: overwrite in place if the key exists, append otherwise. -/
def setKey : Registry → String → Link → Registry
  | [], k, v => [(k, v)]
  | e :: t, k, v => if e.1 = k then (k, v) :: t else e :: setKey t k v

/-- JS `Map.delete`. -/
def eraseKey (r : Registry) (k : String) : Registry :=
  r.filter (fun e => e.1 ≠ k)

/-- Well-formedness of the registry as a model of a JS `Map`: keys are
pairwise distinct. -/
def NodupKeys (r : Registry) : Prop :=
  (r.map Prod.fst).Nodup

/-- The mutable state of a `MeshConnection` instance (connection-graph part). -/
structure MCState where
  selfId : String
  peerUsernames : List String
  peers : Registry
  destroyed : List Nat
  nextHandle : Nat
  currentHostId : Option String
  isHost : Bool
deriving DecidableEq, Repr

/-- `peerUsernames.set(p, …)`: records a known peer id (keys only; the JS map
keeps insertion order, a new key is appended). -/
def addKnown (l : List String) (p : String) : List String :=
  if p ∈ l then l else l ++ [p]

/-- `createPeerConnection(peerId, initiator)`: builds a fresh connection
object (fresh handle, `connected: false`, `retryCount: 0`) and stores it with
`this.peers.set(peerId, peerInfo)`. Note: it does NOT destroy a previously
registered connection for the same peerId. -/
def createPeerConnection (p : String) (initiator : Bool) (s : MCState) : MCState :=
  { s with
    peers := setKey s.peers p
      { handle := s.nextHandle, isInitiator := initiator, connected := false, retryCount := 0 }
    nextHandle := s.nextHandle + 1 }

/-- `removePeerConnection(peerId)`: clears the retry timer, calls
`connection.destroy()` and deletes the map entry (usernames are kept). -/
def removePeerConnection (p : String) (s : MCState) : MCState :=
  match lookupKey s.peers p with
  | some link =>
      { s with peers := eraseKey s.peers p, destroyed := link.handle :: s.destroyed }
  | none => s

/-- `closeNonHostConnections(hostPeerId)`: destroys and deletes every registry
entry other than the host's. -/
def closeNonHostConnections (hostId : String) (s : MCState) : MCState :=
  { s with
    peers := s.peers.filter (fun e => e.1 = hostId)
    destroyed := (s.peers.filter (fun e => e.1 ≠ hostId)).map (fun e => e.2.handle) ++ s.destroyed }

/-- Observable actions of a handler run. `starCollapse h b` records that
`closeNonHostConnections h` ran; `b` is the `connected` flag the host link
had in the registry at that moment. -/
inductive Obs where
  | starCollapse (hostId : String) (hostLinkConnected : Bool)
deriving DecidableEq, Repr

/-- `connectToHost(hostPeerId)`: ensure a link to the host exists; collapse to
a star only when that link is already confirmed connected. -/
def connectToHost (hostId : String) (s : MCState) : MCState × List Obs :=
  match lookupKey s.peers hostId with
  | none => (createPeerConnection hostId true s, [])
  | some link =>
      if link.connected then
        (closeNonHostConnections hostId s, [.starCollapse hostId link.connected])
      else (s, [])

/-- `becomeHost()`: set the host flag and proactively open links to every
known peer without a registry entry (forwarder start not modelled). -/
def becomeHost (s : MCState) : MCState :=
  let s1 := { s with isHost := true }
  s1.peerUsernames.foldl
    (fun acc p => if (lookupKey acc.peers p).isSome then acc else createPeerConnection p true acc)
    s1

/-- JS code-unit lexicographic `<` on char lists (`Array.prototype.sort`
default string comparator; code points and UTF-16 units agree on the BMP). -/
def chListLt : List Char → List Char → Bool
  | _, [] => false
  | [], _ :: _ => true
  | c :: cs, d :: ds => c.toNat < d.toNat || (c.toNat = d.toNat && chListLt cs ds)

/-- JS `a < b` on strings. -/
def jsStrLt (a b : String) : Bool :=
  chListLt a.data b.data

/-- `allPeerIds.sort()[0]`: the head of the default-sorted array is a minimal
element under the code-unit order, computed as a fold. -/
def jsSortedHead (x : String) (l : List String) : String :=
  l.foldl (fun m y => if jsStrLt y m then y else m) x

/-- The re-election arm of `MeshConnection.electHost()` (no current host, or
the current host left): pick the lowest peer id of `[this.peerId,
...peerUsernames.keys()]`, step down if this node was host and loses the
role, store the assignment and take the matching role transition. -/
def mcElectNewHost (s : MCState) : MCState × List Obs :=
  let m := jsSortedHead s.selfId s.peerUsernames
  let s1 :=
    match s.currentHostId with
    | some old => if old ≠ m ∧ s.isHost then { s with isHost := false } else s
    | none => s
  let s2 := { s1 with currentHostId := some m }
  if m = s.selfId then (becomeHost s2, []) else connectToHost m s2

/-- `MeshConnection.electHost()`: keep a current host that is still among the
known participants (only refreshing the local role), otherwise elect the
lowest peer id. -/
def mcElectHost (s : MCState) : MCState × List Obs :=
  let allPeerIds := s.selfId :: s.peerUsernames
  match s.currentHostId with
  | some h =>
      if h ∈ allPeerIds then
        if h = s.selfId then
          (if s.isHost then s else becomeHost s, [])
        else
          connectToHost h (if s.isHost then { s with isHost := false } else s)
      else mcElectNewHost s
  | none => mcElectNewHost s

/-- `dissolveHostTopology()`: drop host duties and the assignment, and re-open
direct links to every known peer without one. -/
def dissolveHostTopology (s : MCState) : MCState :=
  let s1 := { s with isHost := false, currentHostId := none }
  s1.peerUsernames.foldl
    (fun acc p =>
      if p ≠ s.selfId ∧ (lookupKey acc.peers p).isNone
      then createPeerConnection p true acc else acc)
    s1

/-- The signaling / link events the orchestrator reacts to.
`topologyBecameHost` / `topologyBecameMesh` are the topology-manager change
callback (`handleTopologyChange`) with host topology enabled. -/
inductive MCEvent where
  | roomJoined (existingPeers : List String)
  | peerJoined (p : String)
  | peerLeft (p : String)
  | signalFrom (p : String)
  | connected (p : String)
  | topologyBecameHost
  | topologyBecameMesh
deriving DecidableEq, Repr

/-- Host-link `connected` flag as recorded in a state's registry. -/
def connLookup (s : MCState) (p : String) : Bool :=
  match lookupKey s.peers p with
  | some link => link.connected
  | none => false

/-- One event-handler run of the orchestrator. -/
def stepEvent (s : MCState) (e : MCEvent) : MCState × List Obs :=
  match e with
  | .roomJoined ps =>
      let s1 := { s with peerUsernames := ps.foldl addKnown s.peerUsernames }
      (ps.foldl (fun acc p => createPeerConnection p true acc) s1, [])
  | .peerJoined p =>
      ({ s with peerUsernames := addKnown s.peerUsernames p }, [])
  | .peerLeft p =>
      let s1 := removePeerConnection p s
      let s2 := { s1 with peerUsernames := s1.peerUsernames.filter (fun q => q ≠ p) }
      if s.currentHostId = some p then mcElectHost s2 else (s2, [])
  | .signalFrom p =>
      if (lookupKey s.peers p).isSome then (s, [])
      else (createPeerConnection p false s, [])
  | .connected p =>
      match lookupKey s.peers p with
      | none => (s, [])
      | some link =>
          let s1 := { s with peers := setKey s.peers p { link with connected := true } }
          if s.currentHostId = some p ∧ ¬ s.isHost then
            (closeNonHostConnections p s1, [.starCollapse p (connLookup s1 p)])
          else (s1, [])
  | .topologyBecameHost => mcElectHost s
  | .topologyBecameMesh => (dissolveHostTopology s, [])

/-- Run a sequence of events, accumulating the observable actions. -/
def runEvents (s : MCState) : List MCEvent → MCState × List Obs
  | [] => (s, [])
  | e :: es =>
      let r := stepEvent s e
      let rest := runEvents r.1 es
      (rest.1, r.2 ++ rest.2)

/-! ## Retry-on-close policy (`peer.on('close', …)` handler) -/

/-- `peerId === this.currentHostId && !this.isHost`. -/
def isHostConnection (currentHostId : Option String) (isHost : Bool) (peerId : String) : Bool :=
  decide (currentHostId = some peerId) && !isHost

/-- `const maxRetries = isHostConnection ? 3 : 1`. -/
def maxRetries (hostConn : Bool) : Nat :=
  if hostConn then 3 else 1

/-- What a single `close` event does to a link whose current `retryCount` is
given: schedule a retry after `2000 * (retryCount + 1)` ms, or prune the peer
(`removePeerConnection`) once the cap is reached. -/
inductive CloseAction where
  | scheduleRetry (newRetryCount : Nat) (delayMs : Nat)
  | prune
deriving DecidableEq, Repr

/-- The decision taken by the `close` handler. -/
def onCloseDecision (hostConn : Bool) (retryCount : Nat) : CloseAction :=
  if retryCount < maxRetries hostConn then
    .scheduleRetry (retryCount + 1) (2000 * (retryCount + 1))
  else .prune

/-- Successive `close` events on one link object (each scheduled retry bumps
the stored `retryCount`); `fuel` bounds the number of closes observed. -/
def closeHistoryFrom (hostConn : Bool) : Nat → Nat → List CloseAction
  | _, 0 => []
  | count, fuel + 1 =>
      match onCloseDecision hostConn count with
      | .prune => [.prune]
      | .scheduleRetry n d => .scheduleRetry n d :: closeHistoryFrom hostConn n fuel

/-- Delay scheduled by the close handler at a given `retryCount` (0 when it
prunes instead). -/
def retryDelay (hostConn : Bool) (retryCount : Nat) : Nat :=
  match onCloseDecision hostConn retryCount with
  | .scheduleRetry _ d => d
  | .prune => 0

/-! ## Helper values used in concrete statements -/

/-- Empty stats map (no measured stats available). -/
def noStats : StatsMap := fun _ => none

/-- Empty capabilities map. -/
def noCaps : CapMap := fun _ => none

/-- A node "b" that knows one peer "a", with no host assigned yet. -/
def cxElectState : MCState :=
  { selfId := "b", peerUsernames := ["a"], peers := [], destroyed := []
    nextHandle := 0, currentHostId := none, isHost := false }

/-- A node holding one open (connected) link to peer "p" under handle 0. -/
def cxCreateState : MCState :=
  { selfId := "s", peerUsernames := ["p"]
    peers := [("p", { handle := 0, isInitiator := true, connected := true, retryCount := 0 })]
    destroyed := [], nextHandle := 1, currentHostId := none, isHost := false }

/-- A non-host node assigned host "h", holding unconnected links to "h" and
"p". -/
def wCollapseState : MCState :=
  { selfId := "me", peerUsernames := ["h", "p"]
    peers := [("h", { handle := 0, isInitiator := true, connected := false, retryCount := 0 }),
              ("p", { handle := 1, isInitiator := true, connected := false, retryCount := 0 })]
    destroyed := [], nextHandle := 2, currentHostId := some "h", isHost := false }

/-- A node "a" with current host "b" still present among the known peers. -/
def wKeepHostState : MCState :=
  { selfId := "a", peerUsernames := ["b"], peers := [], destroyed := []
    nextHandle := 0, currentHostId := some "b", isHost := false }

/-! # Lemmas

## The stable descending sort of `electHost` -/

theorem insertDesc_perm (x : HostScore) (l : List HostScore) :
    (insertDesc x l).Perm (x :: l) := by
  induction l with
  | nil => simp [insertDesc]
  | cons y ys ih =>
      by_cases h : y.totalScore ≤ x.totalScore
      · simp [insertDesc, h]
      · simp only [insertDesc, if_neg h]
        exact (ih.cons y).trans (List.Perm.swap x y ys)

theorem sortByScoreDesc_perm (l : List HostScore) :
    (sortByScoreDesc l).Perm l := by
  induction l with
  | nil => simp [sortByScoreDesc]
  | cons a t ih =>
      simpa [sortByScoreDesc] using
        (insertDesc_perm a (sortByScoreDesc t)).trans (ih.cons a)

theorem insertDesc_pairwise (x : HostScore) {l : List HostScore}
    (h : l.Pairwise (fun a b => b.totalScore ≤ a.totalScore)) :
    (insertDesc x l).Pairwise (fun a b => b.totalScore ≤ a.totalScore) := by
  induction l with
  | nil => simp [insertDesc]
  | cons y ys ih =>
      rw [List.pairwise_cons] at h
      obtain ⟨hy, hys⟩ := h
      by_cases hle : y.totalScore ≤ x.totalScore
      · rw [insertDesc, if_pos hle, List.pairwise_cons]
        refine ⟨?_, by rw [List.pairwise_cons]; exact ⟨hy, hys⟩⟩
        intro b hb
        rcases List.mem_cons.mp hb with rfl | hb
        · exact hle
        · exact le_trans (hy b hb) hle
      · rw [insertDesc, if_neg hle, List.pairwise_cons]
        refine ⟨?_, ih hys⟩
        intro b hb
        have : b ∈ x :: ys := (insertDesc_perm x ys).mem_iff.mp hb
        rcases List.mem_cons.mp this with rfl | hb2
        · exact le_of_not_le hle
        · exact hy b hb2

theorem sortByScoreDesc_pairwise (l : List HostScore) :
    (sortByScoreDesc l).Pairwise (fun a b => b.totalScore ≤ a.totalScore) := by
  induction l with
  | nil => simp [sortByScoreDesc]
  | cons a t ih => simpa [sortByScoreDesc] using insertDesc_pairwise a ih

theorem sortByScoreDesc_ne_nil {l : List HostScore} (h : l ≠ []) :
    sortByScoreDesc l ≠ [] := by
  intro hnil
  exact h ((hnil ▸ sortByScoreDesc_perm l).symm.eq_nil)

/-- For two or more candidates, `electHost` returns the peer id of a score
record that belongs to the scored list and whose total bounds every other
total (the head of the stable descending sort). -/
theorem electHost_winner_spec (p q : String) (rest : List String)
    (stats : StatsMap) (caps : CapMap) :
    ∃ w : HostScore,
      electHost (p :: q :: rest) stats caps = .ok w.peerId ∧
      w ∈ scoresOf (p :: q :: rest) stats caps ∧
      ∀ y ∈ scoresOf (p :: q :: rest) stats caps, y.totalScore ≤ w.totalScore := by
  have hne : scoresOf (p :: q :: rest) stats caps ≠ [] := by simp [scoresOf]
  rcases hsort : sortByScoreDesc (scoresOf (p :: q :: rest) stats caps) with _ | ⟨w, t⟩
  · exact absurd hsort (sortByScoreDesc_ne_nil hne)
  · refine ⟨w, ?_, ?_, ?_⟩
    · simp [electHost, hsort]
    · exact (sortByScoreDesc_perm _).mem_iff.mp (hsort ▸ List.mem_cons_self w t)
    · intro y hy
      have hy2 : y ∈ w :: t := hsort ▸ (sortByScoreDesc_perm _).mem_iff.mpr hy
      rcases List.mem_cons.mp hy2 with rfl | hy3
      · exact le_refl _
      · have := sortByScoreDesc_pairwise (scoresOf (p :: q :: rest) stats caps)
        rw [hsort, List.pairwise_cons] at this
        exact this.1 y hy3

/-! ## Claim C2: order (in)dependence of `electHost` -/

/-- C2 (counterexample) — the claim "`electHost` returns the same winner for
every permutation of the input peer array" is false on the code: the peer ids
`"a"` and `"aZ"` have the same tiebreaker hash value 97 modulo 100, so with no
stats or capabilities their total scores are exactly equal, and the stable
sort then returns whichever peer came first in the input array. -/
theorem electHost_order_dependent_on_tie :
    List.Perm ["a", "aZ"] ["aZ", "a"] ∧
    electHost ["a", "aZ"] noStats noCaps = .ok "a" ∧
    electHost ["aZ", "a"] noStats noCaps = .ok "aZ" ∧
    ("a" : String) ≠ "aZ" := by
  have tba : scoreTiebreaker "a" = 97 := by decide
  have tbaZ : scoreTiebreaker "aZ" = 97 := by decide
  refine ⟨List.Perm.swap "aZ" "a" [], ?_, ?_, by decide⟩
  · norm_num [electHost, scoresOf, sortByScoreDesc, insertDesc, scorePeer,
      scoreConnectionQuality, scoreNATType, scoreBandwidth, scorePlatform,
      orFalsy, noStats, noCaps, tba, tbaZ]
  · norm_num [electHost, scoresOf, sortByScoreDesc, insertDesc, scorePeer,
      scoreConnectionQuality, scoreNATType, scoreBandwidth, scorePlatform,
      orFalsy, noStats, noCaps, tba, tbaZ]

/-- C2 (amended) — `electHost` is order independent whenever the candidates'
total scores are pairwise distinct (exact ties are instead resolved by input
order, by stability of the sort). -/
theorem electHost_order_invariant_of_distinct_totals
    (stats : StatsMap) (caps : CapMap) {l1 l2 : List String}
    (hperm : l1.Perm l2)
    (hdist : (scoresOf l1 stats caps).Pairwise
      (fun a b => a.totalScore ≠ b.totalScore)) :
    electHost l1 stats caps = electHost l2 stats caps := by
  match l1, l2 with
  | [], l2 =>
      rw [hperm.symm.eq_nil]
  | [p], l2 =>
      rw [List.perm_singleton.mp hperm.symm]
  | p :: q :: rest, l2 =>
      match l2, hperm.length_eq with
      | p2 :: q2 :: rest2, _ =>
        obtain ⟨w1, hw1, hw1mem, hw1max⟩ := electHost_winner_spec p q rest stats caps
        obtain ⟨w2, hw2, hw2mem, hw2max⟩ := electHost_winner_spec p2 q2 rest2 stats caps
        have hmapperm : (scoresOf (p :: q :: rest) stats caps).Perm
            (scoresOf (p2 :: q2 :: rest2) stats caps) :=
          hperm.map _
        have hw2mem1 : w2 ∈ scoresOf (p :: q :: rest) stats caps :=
          hmapperm.mem_iff.mpr hw2mem
        have hw1mem2 : w1 ∈ scoresOf (p2 :: q2 :: rest2) stats caps :=
          hmapperm.mem_iff.mp hw1mem
        have heq : w1 = w2 := by
          by_contra hne
          have hsymm : Symmetric (fun a b : HostScore => a.totalScore ≠ b.totalScore) :=
            fun _ _ h => h.symm
          exact (hdist.forall hsymm hw1mem hw2mem1 hne)
            (le_antisymm (hw1max w2 hw2mem1) (hw2max w1 hw1mem2) ▸ rfl)
        rw [hw1, hw2, heq]

theorem electHost_ok_of_ne_nil {peers : List String} (stats : StatsMap)
    (caps : CapMap) (h : peers ≠ []) :
    ∃ w, electHost peers stats caps = .ok w := by
  match peers with
  | [p] => exact ⟨p, rfl⟩
  | p :: q :: rest =>
      obtain ⟨w, hw, -, -⟩ := electHost_winner_spec p q rest stats caps
      exact ⟨w.peerId, hw⟩

/-! ## Claim C4: `shouldReplaceHost` hysteresis -/

/-- C4 — `shouldReplaceHost`: (1) an incumbent absent from a nonempty `peers`
is always replaced by the freshly elected winner among the remaining peers;
(2) when the incumbent is present and the best alternative exceeds it by at
most the hysteresis threshold, no replacement; (3) strictly more than the
threshold forces replacement with that alternative. -/
theorem shouldReplaceHost_spec (cur : String) (peers : List String)
    (stats : StatsMap) (caps : CapMap) (t : ℚ) :
    (cur ∉ peers → peers ≠ [] →
      ∃ w, electHost peers stats caps = .ok w ∧
        shouldReplaceHost cur peers stats caps t =
          .ok { shouldReplace := true, newHostId := some w }) ∧
    (∀ w, cur ∈ peers →
      electHost (peers.filter (· ≠ cur)) stats caps = .ok w →
      (scorePeer w (stats w) (caps w)).totalScore
        - (scorePeer cur (stats cur) (caps cur)).totalScore ≤ t →
      shouldReplaceHost cur peers stats caps t =
        .ok { shouldReplace := false, newHostId := none }) ∧
    (∀ w, cur ∈ peers →
      electHost (peers.filter (· ≠ cur)) stats caps = .ok w →
      t < (scorePeer w (stats w) (caps w)).totalScore
        - (scorePeer cur (stats cur) (caps cur)).totalScore →
      shouldReplaceHost cur peers stats caps t =
        .ok { shouldReplace := true, newHostId := some w }) := by
  refine ⟨?_, ?_, ?_⟩
  · intro hnot hne
    obtain ⟨w, hw⟩ := electHost_ok_of_ne_nil stats caps hne
    exact ⟨w, hw, by simp [shouldReplaceHost, hnot, hw]⟩
  · intro w hmem helect hle
    rcases halts : peers.filter (· ≠ cur) with _ | ⟨a, as⟩
    · rw [halts] at helect
      simp [electHost] at helect
    · rw [halts] at helect
      simp only [shouldReplaceHost, if_pos hmem, halts, helect]
      rw [if_neg (not_lt.mpr hle)]
  · intro w hmem helect hlt
    rcases halts : peers.filter (· ≠ cur) with _ | ⟨a, as⟩
    · rw [halts] at helect
      simp [electHost] at helect
    · rw [halts] at helect
      simp only [shouldReplaceHost, if_pos hmem, halts, helect]
      rw [if_pos hlt]

/-! ## Claim C8: the bandwidth axis score -/

/-- C8 (counterexample) — the claim "the bandwidth axis score is 0 for every
bandwidth < 100 kbps" fails at bandwidth 0: the JS guard `if (!bandwidth)`
treats 0 as falsy and returns the missing-value default 50. -/
theorem scoreBandwidth_zero_not_zero :
    scoreBandwidth (some 0) = 50 ∧ (0 : ℚ) < 100 ∧ (50 : ℚ) ≠ 0 := by
  norm_num [scoreBandwidth]

/-- C8 (amended) — the bandwidth axis score is 100 for bandwidth ≥ 2000, 0 for
nonzero bandwidth < 100, the linear interpolation on [100, 2000), and 50 when
the value is missing or equal to 0 (0 is falsy in JS and is treated like a
missing value). -/
theorem scoreBandwidth_spec :
    scoreBandwidth none = 50 ∧
    scoreBandwidth (some 0) = 50 ∧
    (∀ b : ℚ, b ≠ 0 → b < 100 → scoreBandwidth (some b) = 0) ∧
    (∀ b : ℚ, 2000 ≤ b → scoreBandwidth (some b) = 100) ∧
    (∀ b : ℚ, 100 ≤ b → b < 2000 → scoreBandwidth (some b) = (b - 100) / 1900 * 100) := by
  refine ⟨rfl, by norm_num [scoreBandwidth], ?_, ?_, ?_⟩
  · intro b hne hlt
    rw [scoreBandwidth, if_neg hne, if_neg (by linarith), if_pos hlt]
  · intro b hge
    rw [scoreBandwidth, if_neg (by linarith), if_pos hge]
  · intro b hge hlt
    rw [scoreBandwidth, if_neg (by linarith), if_neg (by linarith),
      if_neg (not_lt.mpr hge)]

/-! ## Claim C10: score ranges -/

theorem natAbs_tmod_100_le (a : ℤ) : (a.tmod 100).natAbs ≤ 99 := by
  cases a with
  | ofNat m =>
      show m % 100 ≤ 99
      omega
  | negSucc m =>
      rw [show (Int.negSucc m).tmod 100 = -Int.ofNat ((m + 1) % 100) from rfl,
        Int.natAbs_neg]
      show (m + 1) % 100 ≤ 99
      omega

theorem scoreTiebreaker_int_range (p : String) :
    ∃ n : ℕ, scoreTiebreaker p = (n : ℚ) ∧ n ≤ 99 :=
  ⟨((jsHash p).tmod 100).natAbs, rfl, natAbs_tmod_100_le _⟩

theorem max_zero_sub_bounds {x : ℚ} (hx : 0 ≤ x) :
    0 ≤ max 0 (100 - x) ∧ max 0 (100 - x) ≤ 100 :=
  ⟨le_max_left 0 _, max_le (by norm_num) (by linarith)⟩

theorem scoreConnectionQuality_bounds (stats : Option PeerConnectionStats)
    (h : ∀ s, stats = some s →
      0 ≤ s.latency ∧ 0 ≤ s.jitter ∧ 0 ≤ s.packetLoss ∧ s.packetLoss ≤ 1) :
    0 ≤ scoreConnectionQuality stats ∧ scoreConnectionQuality stats ≤ 100 := by
  cases stats with
  | none => norm_num [scoreConnectionQuality]
  | some s =>
      obtain ⟨hlat, hjit, hloss, -⟩ := h s rfl
      have h1 := max_zero_sub_bounds
        (mul_nonneg (div_nonneg hlat (by norm_num : (0:ℚ) ≤ 200))
          (by norm_num : (0:ℚ) ≤ 100))
      have h2 := max_zero_sub_bounds
        (mul_nonneg (mul_nonneg hloss (by norm_num : (0:ℚ) ≤ 100))
          (by norm_num : (0:ℚ) ≤ 20))
      have h3 := max_zero_sub_bounds
        (mul_nonneg (div_nonneg hjit (by norm_num : (0:ℚ) ≤ 100))
          (by norm_num : (0:ℚ) ≤ 100))
      simp only [scoreConnectionQuality]
      constructor
      · linarith [h1.1, h2.1, h3.1]
      · linarith [h1.2, h2.2, h3.2]

theorem scoreNATType_bounds (o : Option NatType) :
    0 ≤ scoreNATType o ∧ scoreNATType o ≤ 100 := by
  rcases o with _ | n
  · norm_num [scoreNATType]
  · cases n <;> norm_num [scoreNATType]

theorem scorePlatform_bounds (o : Option Platform) :
    0 ≤ scorePlatform o ∧ scorePlatform o ≤ 100 := by
  rcases o with _ | p
  · norm_num [scorePlatform]
  · cases p <;> norm_num [scorePlatform]

theorem scoreBandwidth_bounds (o : Option ℚ) :
    0 ≤ scoreBandwidth o ∧ scoreBandwidth o ≤ 100 := by
  rcases o with _ | b
  · norm_num [scoreBandwidth]
  · rw [scoreBandwidth]
    split_ifs with h0 h2k h100
    · norm_num
    · norm_num
    · norm_num
    · constructor
      · exact mul_nonneg (div_nonneg (by linarith) (by norm_num)) (by norm_num)
      · rw [div_mul_eq_mul_div, div_le_iff₀ (by norm_num : (0:ℚ) < 1900)]
        linarith

/-- C10 — for nonnegative latency and jitter and packet loss in [0, 1], every
axis score of `scorePeer` lies in [0, 100], the tiebreaker is (the cast of) a
natural number at most 99, and the weighted total score lies in [0, 100]. -/
theorem scorePeer_in_range (peerId : String) (stats : Option PeerConnectionStats)
    (cap : Option PeerCapability)
    (h : ∀ s, stats = some s →
      0 ≤ s.latency ∧ 0 ≤ s.jitter ∧ 0 ≤ s.packetLoss ∧ s.packetLoss ≤ 1) :
    (0 ≤ (scorePeer peerId stats cap).scores.connectionQuality ∧
      (scorePeer peerId stats cap).scores.connectionQuality ≤ 100) ∧
    (0 ≤ (scorePeer peerId stats cap).scores.natType ∧
      (scorePeer peerId stats cap).scores.natType ≤ 100) ∧
    (0 ≤ (scorePeer peerId stats cap).scores.bandwidth ∧
      (scorePeer peerId stats cap).scores.bandwidth ≤ 100) ∧
    (0 ≤ (scorePeer peerId stats cap).scores.platform ∧
      (scorePeer peerId stats cap).scores.platform ≤ 100) ∧
    (∃ n : ℕ, (scorePeer peerId stats cap).scores.tiebreaker = (n : ℚ) ∧ n ≤ 99) ∧
    (0 ≤ (scorePeer peerId stats cap).totalScore ∧
      (scorePeer peerId stats cap).totalScore ≤ 100) := by
  have hcq := scoreConnectionQuality_bounds stats h
  have hnat := scoreNATType_bounds (cap.map (·.natType))
  have hbw := scoreBandwidth_bounds (orFalsy (cap.map (·.bandwidth)) (stats.map (·.bandwidth)))
  have hplat := scorePlatform_bounds (cap.map (·.platform))
  have htie := scoreTiebreaker_int_range peerId
  obtain ⟨n, hn, hn99⟩ := htie
  have htb0 : 0 ≤ scoreTiebreaker peerId := hn ▸ Nat.cast_nonneg n
  have htb100 : scoreTiebreaker peerId ≤ 100 := by
    rw [hn]
    calc (n : ℚ) ≤ 99 := by exact_mod_cast hn99
    _ ≤ 100 := by norm_num
  refine ⟨hcq, hnat, hbw, hplat, ⟨n, hn, hn99⟩, ?_, ?_⟩
  · show 0 ≤ scoreConnectionQuality stats * (35/100) +
      scoreNATType (cap.map (·.natType)) * (25/100) +
      scoreBandwidth (orFalsy (cap.map (·.bandwidth)) (stats.map (·.bandwidth))) * (25/100) +
      scorePlatform (cap.map (·.platform)) * (10/100) +
      scoreTiebreaker peerId * (5/100)
    linarith [hcq.1, hnat.1, hbw.1, hplat.1]
  · show scoreConnectionQuality stats * (35/100) +
      scoreNATType (cap.map (·.natType)) * (25/100) +
      scoreBandwidth (orFalsy (cap.map (·.bandwidth)) (stats.map (·.bandwidth))) * (25/100) +
      scorePlatform (cap.map (·.platform)) * (10/100) +
      scoreTiebreaker peerId * (5/100) ≤ 100
    linarith [hcq.2, hnat.2, hbw.2, hplat.2]

/-! ## Registry lemmas -/

theorem lookupKey_setKey_self (r : Registry) (k : String) (v : Link) :
    lookupKey (setKey r k v) k = some v := by
  induction r with
  | nil => simp [setKey, lookupKey]
  | cons e t ih =>
      by_cases h : e.1 = k
      · simp [setKey, h, lookupKey]
      · simp [setKey, h, lookupKey, ih]

theorem lookupKey_mem_keys {r : Registry} {k : String} {v : Link}
    (h : lookupKey r k = some v) : k ∈ r.map Prod.fst := by
  induction r with
  | nil => simp [lookupKey] at h
  | cons e t ih =>
      rw [lookupKey] at h
      by_cases he : e.1 = k
      · simp [he]
      · rw [if_neg he] at h
        simpa using Or.inr (ih h)

theorem mem_keys_setKey {r : Registry} {k a : String} {v : Link}
    (h : a ∈ (setKey r k v).map Prod.fst) : a = k ∨ a ∈ r.map Prod.fst := by
  induction r with
  | nil => simpa [setKey] using h
  | cons e t ih =>
      by_cases he : e.1 = k
      · rw [setKey, if_pos he] at h
        simp only [List.map_cons, List.mem_cons] at h ⊢
        rcases h with rfl | h
        · exact Or.inl rfl
        · exact Or.inr (Or.inr h)
      · rw [setKey, if_neg he] at h
        simp only [List.map_cons, List.mem_cons] at h ⊢
        rcases h with rfl | h
        · exact Or.inr (Or.inl rfl)
        · rcases ih h with h2 | h2
          · exact Or.inl h2
          · exact Or.inr (Or.inr h2)

theorem NodupKeys_setKey {r : Registry} (k : String) (v : Link)
    (h : NodupKeys r) : NodupKeys (setKey r k v) := by
  induction r with
  | nil => simp [NodupKeys, setKey]
  | cons e t ih =>
      rw [NodupKeys, List.map_cons, List.nodup_cons] at h
      obtain ⟨hnotin, ht⟩ := h
      by_cases he : e.1 = k
      · rw [NodupKeys, setKey, if_pos he, List.map_cons, List.nodup_cons]
        exact ⟨he ▸ hnotin, ht⟩
      · rw [NodupKeys, setKey, if_neg he, List.map_cons, List.nodup_cons]
        refine ⟨?_, ih ht⟩
        intro hmem
        rcases mem_keys_setKey hmem with rfl | h2
        · exact he rfl
        · exact hnotin h2

theorem NodupKeys_filter (r : Registry) (p : String × Link → Bool)
    (h : NodupKeys r) : NodupKeys (r.filter p) :=
  List.Nodup.sublist ((List.filter_sublist r).map Prod.fst) h

theorem foldl_preserve {σ α : Type _} (Inv : σ → Prop) (f : σ → α → σ)
    (hf : ∀ s a, Inv s → Inv (f s a)) :
    ∀ (l : List α) (s : σ), Inv s → Inv (l.foldl f s) := by
  intro l
  induction l with
  | nil => intro s hs; exact hs
  | cons a t ih => intro s hs; exact ih _ (hf s a hs)

/-! ## The orchestrator preserves registry well-formedness -/

theorem NodupKeys_create (p : String) (i : Bool) (s : MCState)
    (h : NodupKeys s.peers) : NodupKeys (createPeerConnection p i s).peers :=
  NodupKeys_setKey _ _ h

theorem NodupKeys_remove (p : String) (s : MCState)
    (h : NodupKeys s.peers) : NodupKeys (removePeerConnection p s).peers := by
  rw [removePeerConnection]
  cases lookupKey s.peers p with
  | none => exact h
  | some link => exact NodupKeys_filter _ _ h

theorem NodupKeys_closeNonHost (hostId : String) (s : MCState)
    (h : NodupKeys s.peers) : NodupKeys (closeNonHostConnections hostId s).peers :=
  NodupKeys_filter _ _ h

theorem becomeHost_fields (s : MCState) :
    (becomeHost s).currentHostId = s.currentHostId ∧
    (becomeHost s).selfId = s.selfId ∧
    (becomeHost s).peerUsernames = s.peerUsernames := by
  rw [becomeHost]
  exact foldl_preserve
    (fun (st : MCState) => st.currentHostId = s.currentHostId ∧
      st.selfId = s.selfId ∧ st.peerUsernames = s.peerUsernames)
    _ (by intro st p hst; by_cases hp : (lookupKey st.peers p).isSome <;>
        simp [hp, createPeerConnection, hst]) _ _ ⟨rfl, rfl, rfl⟩

theorem NodupKeys_becomeHost (s : MCState)
    (h : NodupKeys s.peers) : NodupKeys (becomeHost s).peers := by
  rw [becomeHost]
  exact foldl_preserve (fun (st : MCState) => NodupKeys st.peers)
    _ (by intro st p hst; by_cases hp : (lookupKey st.peers p).isSome
          · simpa [hp] using hst
          · simpa [hp] using NodupKeys_create p true st hst) _ _ h

theorem connectToHost_fields (hostId : String) (s : MCState) :
    (connectToHost hostId s).1.currentHostId = s.currentHostId ∧
    (connectToHost hostId s).1.selfId = s.selfId ∧
    (connectToHost hostId s).1.peerUsernames = s.peerUsernames := by
  rw [connectToHost]
  cases lookupKey s.peers hostId with
  | none => exact ⟨rfl, rfl, rfl⟩
  | some link =>
      by_cases hc : link.connected <;>
        simp [hc, closeNonHostConnections]

theorem NodupKeys_connectToHost (hostId : String) (s : MCState)
    (h : NodupKeys s.peers) : NodupKeys (connectToHost hostId s).1.peers := by
  rw [connectToHost]
  cases lookupKey s.peers hostId with
  | none => exact NodupKeys_create _ _ _ h
  | some link =>
      by_cases hc : link.connected
      · simpa [hc] using NodupKeys_closeNonHost hostId s h
      · simpa [hc] using h

/-- Case analysis of the re-election arm: there is an intermediate state `s2`
(same registry, known set and self id, with the assignment set to the lowest
peer id) from which either `becomeHost` or `connectToHost` runs. -/
theorem mcElectNewHost_spec (s : MCState) :
    ∃ s2 : MCState,
      s2.peers = s.peers ∧
      s2.selfId = s.selfId ∧
      s2.peerUsernames = s.peerUsernames ∧
      s2.currentHostId = some (jsSortedHead s.selfId s.peerUsernames) ∧
      (mcElectNewHost s = (becomeHost s2, []) ∨
        mcElectNewHost s = connectToHost (jsSortedHead s.selfId s.peerUsernames) s2) := by
  cases hcur : s.currentHostId with
  | none =>
      refine ⟨{ s with currentHostId := some (jsSortedHead s.selfId s.peerUsernames) },
        rfl, rfl, rfl, rfl, ?_⟩
      by_cases hself : jsSortedHead s.selfId s.peerUsernames = s.selfId
      · exact Or.inl (by simp only [mcElectNewHost, hcur, if_pos hself])
      · exact Or.inr (by simp only [mcElectNewHost, hcur, if_neg hself])
  | some old =>
      by_cases hstep : old ≠ jsSortedHead s.selfId s.peerUsernames ∧ s.isHost = true
      · refine ⟨{ { s with isHost := false } with
          currentHostId := some (jsSortedHead s.selfId s.peerUsernames) },
          rfl, rfl, rfl, rfl, ?_⟩
        by_cases hself : jsSortedHead s.selfId s.peerUsernames = s.selfId
        · exact Or.inl (by simp only [mcElectNewHost, hcur, if_pos hstep, if_pos hself])
        · exact Or.inr (by simp only [mcElectNewHost, hcur, if_pos hstep, if_neg hself])
      · refine ⟨{ s with currentHostId := some (jsSortedHead s.selfId s.peerUsernames) },
          rfl, rfl, rfl, rfl, ?_⟩
        by_cases hself : jsSortedHead s.selfId s.peerUsernames = s.selfId
        · exact Or.inl (by simp only [mcElectNewHost, hcur, if_neg hstep, if_pos hself])
        · exact Or.inr (by simp only [mcElectNewHost, hcur, if_neg hstep, if_neg hself])

/-- The keep branch of `MeshConnection.electHost()` as an equation. -/
theorem mcElectHost_keep (s : MCState) (hh : String)
    (hcur : s.currentHostId = some hh) (hmem : hh ∈ s.selfId :: s.peerUsernames) :
    mcElectHost s =
      if hh = s.selfId then
        (if s.isHost then s else becomeHost s, [])
      else connectToHost hh (if s.isHost then { s with isHost := false } else s) := by
  simp only [mcElectHost, hcur, if_pos hmem]

/-- With no current host among the known participants, `electHost()` runs the
re-election arm. -/
theorem mcElectHost_noHost (s : MCState)
    (h : ∀ hh, s.currentHostId = some hh → hh ∉ s.selfId :: s.peerUsernames) :
    mcElectHost s = mcElectNewHost s := by
  cases hcur : s.currentHostId with
  | none => simp only [mcElectHost, hcur]
  | some hh => simp only [mcElectHost, hcur, if_neg (h hh hcur)]

theorem NodupKeys_mcElectNewHost (s : MCState)
    (h : NodupKeys s.peers) : NodupKeys (mcElectNewHost s).1.peers := by
  obtain ⟨s2, hp, -, -, -, heq | heq⟩ := mcElectNewHost_spec s
  · rw [heq]
    exact NodupKeys_becomeHost s2 (by rw [hp]; exact h)
  · rw [heq]
    exact NodupKeys_connectToHost _ s2 (by rw [hp]; exact h)

theorem NodupKeys_mcElectHost (s : MCState)
    (h : NodupKeys s.peers) : NodupKeys (mcElectHost s).1.peers := by
  cases hcur : s.currentHostId with
  | none =>
      rw [mcElectHost_noHost s (by intro hh hc; rw [hcur] at hc; exact absurd hc (by simp))]
      exact NodupKeys_mcElectNewHost s h
  | some hh =>
      by_cases hmem : hh ∈ s.selfId :: s.peerUsernames
      · rw [mcElectHost_keep s hh hcur hmem]
        by_cases hself : hh = s.selfId
        · rw [if_pos hself]
          by_cases hih : s.isHost
          · simpa [hih] using h
          · simpa [hih] using NodupKeys_becomeHost s h
        · rw [if_neg hself]
          by_cases hih : s.isHost
          · rw [if_pos hih]
            exact NodupKeys_connectToHost hh _ h
          · rw [if_neg hih]
            exact NodupKeys_connectToHost hh s h
      · rw [mcElectHost_noHost s
          (by intro hh2 hc; rw [hcur] at hc; cases hc; exact hmem)]
        exact NodupKeys_mcElectNewHost s h

theorem NodupKeys_dissolve (s : MCState)
    (h : NodupKeys s.peers) : NodupKeys (dissolveHostTopology s).peers := by
  rw [dissolveHostTopology]
  refine foldl_preserve (fun (st : MCState) => NodupKeys st.peers) _ ?_ _ _ h
  intro st p hst
  split
  · exact NodupKeys_create p true st hst
  · exact hst

theorem NodupKeys_stepEvent (s : MCState) (e : MCEvent)
    (h : NodupKeys s.peers) : NodupKeys (stepEvent s e).1.peers := by
  cases e with
  | roomJoined ps =>
      rw [stepEvent]
      refine foldl_preserve (fun (st : MCState) => NodupKeys st.peers) _ ?_ _ _ h
      intro st p hst
      exact NodupKeys_create p true st hst
  | peerJoined p => simpa [stepEvent] using h
  | peerLeft p =>
      rw [stepEvent]
      by_cases hhost : s.currentHostId = some p
      · rw [if_pos hhost]
        exact NodupKeys_mcElectHost _ (NodupKeys_remove p s h)
      · rw [if_neg hhost]
        exact NodupKeys_remove p s h
  | signalFrom p =>
      rw [stepEvent]
      by_cases hp : (lookupKey s.peers p).isSome
      · simpa [hp] using h
      · simpa [hp] using NodupKeys_create p false s h
  | connected p =>
      simp only [stepEvent]
      split
      · exact h
      · next link hl =>
          have hset : NodupKeys (setKey s.peers p { link with connected := true }) :=
            NodupKeys_setKey _ _ h
          split
          · apply NodupKeys_closeNonHost
            exact hset
          · exact hset
  | topologyBecameHost => exact NodupKeys_mcElectHost s h
  | topologyBecameMesh => exact NodupKeys_dissolve s h

/-! ## The JS string order and `sort()[0]` -/

theorem chListLt_irrefl : ∀ l : List Char, chListLt l l = false := by
  intro l
  induction l with
  | nil => rfl
  | cons c cs ih => simp [chListLt, ih]

theorem chListLt_trans : ∀ a b c : List Char,
    chListLt a b = true → chListLt b c = true → chListLt a c = true := by
  intro a
  induction a with
  | nil =>
      intro b c hab hbc
      cases b with
      | nil => simp [chListLt] at hab
      | cons d ds =>
          cases c with
          | nil => simp [chListLt] at hbc
          | cons e es => rfl
  | cons x xs ih =>
      intro b c hab hbc
      cases b with
      | nil => simp [chListLt] at hab
      | cons d ds =>
          cases c with
          | nil => simp [chListLt] at hbc
          | cons e es =>
              simp only [chListLt, Bool.or_eq_true, Bool.and_eq_true,
                decide_eq_true_eq] at hab hbc ⊢
              rcases hab with h1 | ⟨h1, h2⟩
              · rcases hbc with g1 | ⟨g1, g2⟩
                · exact Or.inl (by omega)
                · exact Or.inl (by omega)
              · rcases hbc with g1 | ⟨g1, g2⟩
                · exact Or.inl (by omega)
                · exact Or.inr ⟨by omega, ih ds es h2 g2⟩

theorem chListLt_cotrans : ∀ a c b : List Char,
    chListLt a c = true → chListLt a b = true ∨ chListLt b c = true := by
  intro a
  induction a with
  | nil =>
      intro c b hac
      cases c with
      | nil => simp [chListLt] at hac
      | cons e es =>
          cases b with
          | nil => exact Or.inr rfl
          | cons d ds => exact Or.inl rfl
  | cons x xs ih =>
      intro c b hac
      cases c with
      | nil => simp [chListLt] at hac
      | cons e es =>
          cases b with
          | nil => exact Or.inr rfl
          | cons d ds =>
              simp only [chListLt, Bool.or_eq_true, Bool.and_eq_true,
                decide_eq_true_eq] at hac ⊢
              rcases hac with h1 | ⟨h1, h2⟩
              · rcases Nat.lt_or_ge x.toNat d.toNat with hxd | hxd
                · exact Or.inl (Or.inl hxd)
                · exact Or.inr (Or.inl (by omega))
              · rcases Nat.lt_trichotomy x.toNat d.toNat with hxd | hxd | hxd
                · exact Or.inl (Or.inl hxd)
                · rcases ih es ds h2 with hr | hr
                  · exact Or.inl (Or.inr ⟨hxd, hr⟩)
                  · exact Or.inr (Or.inr ⟨by omega, hr⟩)
                · exact Or.inr (Or.inl (by omega))

theorem jsStrLt_irrefl (a : String) : jsStrLt a a = false :=
  chListLt_irrefl a.data

theorem jsStrLt_trans {a b c : String} (h1 : jsStrLt a b = true)
    (h2 : jsStrLt b c = true) : jsStrLt a c = true :=
  chListLt_trans _ _ _ h1 h2

theorem jsStrLt_cotrans {a c : String} (b : String) (h : jsStrLt a c = true) :
    jsStrLt a b = true ∨ jsStrLt b c = true :=
  chListLt_cotrans _ _ _ h

/-- `jsSortedHead acc l` is an element of `acc :: l` and no element of
`acc :: l` is strictly below it — exactly the property of `arr.sort()[0]`. -/
theorem jsSortedHead_spec : ∀ (l : List String) (acc : String),
    jsSortedHead acc l ∈ acc :: l ∧
    jsStrLt acc (jsSortedHead acc l) = false ∧
    ∀ y ∈ l, jsStrLt y (jsSortedHead acc l) = false := by
  intro l
  induction l with
  | nil =>
      intro acc
      exact ⟨by simp [jsSortedHead], jsStrLt_irrefl acc, by simp⟩
  | cons y ys ih =>
      intro acc
      have hstep : jsSortedHead acc (y :: ys) =
          jsSortedHead (if jsStrLt y acc then y else acc) ys := rfl
      by_cases hy : jsStrLt y acc = true
      · rw [hstep, if_pos hy]
        obtain ⟨hmem, hacc2, hmin⟩ := ih y
        refine ⟨List.mem_cons_of_mem acc hmem, ?_, ?_⟩
        · cases hb : jsStrLt acc (jsSortedHead y ys) with
          | false => rfl
          | true => exact absurd (jsStrLt_trans hy hb) (by simp [hacc2])
        · intro z hz
          rcases List.mem_cons.mp hz with rfl | hz2
          · exact hacc2
          · exact hmin z hz2
      · rw [hstep, if_neg hy]
        obtain ⟨hmem, hacc2, hmin⟩ := ih acc
        refine ⟨?_, hacc2, ?_⟩
        · rcases List.mem_cons.mp hmem with heq | hmem2
          · rw [heq]
            exact List.mem_cons_self _ _
          · exact List.mem_cons_of_mem _ (List.mem_cons_of_mem _ hmem2)
        · intro z hz
          rcases List.mem_cons.mp hz with rfl | hz2
          · cases hb : jsStrLt z (jsSortedHead acc ys) with
            | false => rfl
            | true =>
                rcases jsStrLt_cotrans acc hb with hcase | hcase
                · exact absurd hcase (by simp [hy])
                · exact absurd hcase (by simp [hacc2])
          · exact hmin z hz2

/-! ## Claim C1: which host the orchestrator assigns -/

/-- C1 (counterexample) — the claim "the orchestrator assigns the winner of
`HostElection.electHost`" is false: the node `"b"` with known peer `"a"` and
no current host assigns the lexicographically smallest id `"a"`, while
`HostElection.electHost` over the same candidates (with the same — empty —
stats and capabilities) elects `"b"` (tiebreaker 98 beats 97). The
orchestrator's `electHost()` never consults `HostElection`. -/
theorem mcElectHost_differs_from_hostElection :
    cxElectState.currentHostId = none ∧
    cxElectState.selfId :: cxElectState.peerUsernames = ["b", "a"] ∧
    (mcElectHost cxElectState).1.currentHostId = some "a" ∧
    electHost ["b", "a"] noStats noCaps = .ok "b" ∧
    ("a" : String) ≠ "b" := by
  have tba : scoreTiebreaker "a" = 97 := by decide
  have tbb : scoreTiebreaker "b" = 98 := by decide
  refine ⟨rfl, rfl, by decide, ?_, by decide⟩
  norm_num [electHost, scoresOf, sortByScoreDesc, insertDesc, scorePeer,
    scoreConnectionQuality, scoreNATType, scoreBandwidth, scorePlatform,
    orFalsy, noStats, noCaps, tba, tbb]

/-- C1 (amended) — when the orchestrator's election step runs with no current
host among the known participants, it assigns the lexicographically smallest
id (JS code-unit order) of all known participant ids, self included; the
stats- and capability-based `HostElection.electHost` is not involved. -/
theorem mcElectHost_assigns_min_id (s : MCState)
    (h : ∀ hh, s.currentHostId = some hh → hh ∉ s.selfId :: s.peerUsernames) :
    ∃ m : String,
      (mcElectHost s).1.currentHostId = some m ∧
      m ∈ s.selfId :: s.peerUsernames ∧
      ∀ p ∈ s.selfId :: s.peerUsernames, jsStrLt p m = false := by
  rw [mcElectHost_noHost s h]
  have hspec := jsSortedHead_spec s.peerUsernames s.selfId
  refine ⟨jsSortedHead s.selfId s.peerUsernames, ?_, hspec.1, ?_⟩
  · obtain ⟨s2, -, -, -, hhost, heq | heq⟩ := mcElectNewHost_spec s
    · rw [heq]
      exact (becomeHost_fields s2).1.trans hhost
    · rw [heq]
      exact (connectToHost_fields _ s2).1.trans hhost
  · intro p hp
    rcases List.mem_cons.mp hp with rfl | hp2
    · exact hspec.2.1
    · exact hspec.2.2 p hp2

/-! ## Claim C9: keep a host that is still present -/

/-- C9 — if the currently-assigned host is still among the known participants
(self included), the orchestrator's election step leaves the assignment
unchanged; the assignment can change only when there was none or the assignee
left the known set. -/
theorem mcElectHost_keeps_present_host (s : MCState) :
    (∀ hh, s.currentHostId = some hh → hh ∈ s.selfId :: s.peerUsernames →
      (mcElectHost s).1.currentHostId = some hh) ∧
    ((mcElectHost s).1.currentHostId ≠ s.currentHostId →
      s.currentHostId = none ∨
      ∃ hh, s.currentHostId = some hh ∧ hh ∉ s.selfId :: s.peerUsernames) := by
  have keep : ∀ hh, s.currentHostId = some hh → hh ∈ s.selfId :: s.peerUsernames →
      (mcElectHost s).1.currentHostId = some hh := by
    intro hh hcur hmem
    rw [mcElectHost_keep s hh hcur hmem]
    by_cases hself : hh = s.selfId
    · rw [if_pos hself]
      by_cases hih : s.isHost
      · rw [if_pos hih]; exact hcur
      · rw [if_neg hih]
        exact (becomeHost_fields s).1.trans hcur
    · rw [if_neg hself]
      by_cases hih : s.isHost
      · rw [if_pos hih]
        exact (connectToHost_fields hh _).1.trans hcur
      · rw [if_neg hih]
        exact (connectToHost_fields hh s).1.trans hcur
  refine ⟨keep, ?_⟩
  intro hne
  cases hcur : s.currentHostId with
  | none => exact Or.inl rfl
  | some hh =>
      by_cases hmem : hh ∈ s.selfId :: s.peerUsernames
      · exact absurd ((keep hh hcur hmem).trans hcur.symm) hne
      · exact Or.inr ⟨hh, rfl, hmem⟩

/-! ## Claim C6: one registry link per peer, but no implicit destroy -/

/-- C6 (counterexample) — the claim "creating a new link for a peerId that
already has an open link destroys the old link first" is false:
`createPeerConnection` on peer `"p"`, which holds an open (connected) link
under handle 0, overwrites the registry entry without calling `destroy()` on
the old connection (handle 0 never enters the destroyed set). -/
theorem createPeerConnection_no_implicit_destroy :
    lookupKey cxCreateState.peers "p" =
      some { handle := 0, isInitiator := true, connected := true, retryCount := 0 } ∧
    lookupKey (createPeerConnection "p" true cxCreateState).peers "p" =
      some { handle := 1, isInitiator := true, connected := false, retryCount := 0 } ∧
    (0 : Nat) ∉ (createPeerConnection "p" true cxCreateState).destroyed := by
  exact ⟨rfl, rfl, by decide⟩

/-- C6 (amended) — the registry holds at most one link per peerId (key
uniqueness is preserved by every event handler), and creating a link for a
peerId that already has one replaces the registry entry — exactly one (the
new) link remains — but the old connection object is not destroyed by the
create operation itself (`destroyed` is unchanged); callers tear it down via
`removePeerConnection` beforehand. -/
theorem registry_single_link_per_peer (s : MCState) (e : MCEvent)
    (p : String) (i : Bool) :
    (NodupKeys s.peers → NodupKeys (stepEvent s e).1.peers) ∧
    (lookupKey (createPeerConnection p i s).peers p =
      some { handle := s.nextHandle, isInitiator := i, connected := false, retryCount := 0 }) ∧
    (NodupKeys s.peers →
      ((createPeerConnection p i s).peers.map Prod.fst).count p = 1) ∧
    ((createPeerConnection p i s).destroyed = s.destroyed) := by
  refine ⟨NodupKeys_stepEvent s e, lookupKey_setKey_self _ _ _, ?_, rfl⟩
  intro h
  exact List.count_eq_one_of_mem (NodupKeys_create p i s h)
    (lookupKey_mem_keys (lookupKey_setKey_self s.peers p _))

/-! ## Claim C7: star collapse only after the host link is connected -/

theorem connectToHost_collapse (hostId : String) (s : MCState) (h : String)
    (b : Bool) (hmem : Obs.starCollapse h b ∈ (connectToHost hostId s).2) :
    b = true := by
  rw [connectToHost] at hmem
  split at hmem
  · simp at hmem
  · split at hmem
    · simp only [List.mem_singleton] at hmem
      injection hmem with h1 h2
      rename_i hc
      rw [h2]
      exact hc
    · simp at hmem

theorem mcElectNewHost_collapse (s : MCState) (h : String) (b : Bool)
    (hmem : Obs.starCollapse h b ∈ (mcElectNewHost s).2) : b = true := by
  obtain ⟨s2, -, -, -, -, heq | heq⟩ := mcElectNewHost_spec s
  · rw [heq] at hmem
    simp at hmem
  · rw [heq] at hmem
    exact connectToHost_collapse _ _ _ _ hmem

theorem mcElectHost_collapse (s : MCState) (h : String) (b : Bool)
    (hmem : Obs.starCollapse h b ∈ (mcElectHost s).2) : b = true := by
  cases hcur : s.currentHostId with
  | none =>
      rw [mcElectHost_noHost s (by intro hh hc; rw [hcur] at hc; simp at hc)] at hmem
      exact mcElectNewHost_collapse _ _ _ hmem
  | some hh =>
      by_cases hinset : hh ∈ s.selfId :: s.peerUsernames
      · rw [mcElectHost_keep s hh hcur hinset] at hmem
        by_cases hself : hh = s.selfId
        · rw [if_pos hself] at hmem
          simp at hmem
        · rw [if_neg hself] at hmem
          exact connectToHost_collapse _ _ _ _ hmem
      · rw [mcElectHost_noHost s
          (by intro hh2 hc; rw [hcur] at hc; injection hc with h3; exact h3 ▸ hinset)] at hmem
        exact mcElectNewHost_collapse _ _ _ hmem

theorem stepEvent_collapse (s : MCState) (e : MCEvent) (h : String) (b : Bool)
    (hmem : Obs.starCollapse h b ∈ (stepEvent s e).2) : b = true := by
  cases e with
  | roomJoined ps => simp [stepEvent] at hmem
  | peerJoined p => simp [stepEvent] at hmem
  | peerLeft p =>
      revert hmem
      rw [stepEvent]
      by_cases hhost : s.currentHostId = some p
      · rw [if_pos hhost]
        intro hmem
        exact mcElectHost_collapse _ h b hmem
      · rw [if_neg hhost]
        intro hmem
        simp at hmem
  | signalFrom p =>
      revert hmem
      rw [stepEvent]
      split <;> (intro hmem; simp at hmem)
  | connected p =>
      revert hmem
      simp only [stepEvent]
      split
      · intro hmem; simp at hmem
      · next link hl =>
          split
          · intro hmem
            simp only [List.mem_singleton] at hmem
            injection hmem with h1 h2
            rw [h2]
            simp [connLookup, lookupKey_setKey_self]
          · intro hmem; simp at hmem
  | topologyBecameHost => exact mcElectHost_collapse s h b hmem
  | topologyBecameMesh => simp [stepEvent] at hmem

/-- C7 — in every event sequence, whenever the orchestrator performs the
mesh→star collapse (`closeNonHostConnections`), the link to the designated
host is `connected` in the registry at that moment: non-host links are never
torn down while the host link is still unconnected. -/
theorem starCollapse_only_with_connected_host (s : MCState)
    (es : List MCEvent) (hostId : String) (b : Bool)
    (hmem : Obs.starCollapse hostId b ∈ (runEvents s es).2) : b = true := by
  induction es generalizing s with
  | nil => simp [runEvents] at hmem
  | cons e es ih =>
      simp only [runEvents, List.mem_append] at hmem
      rcases hmem with hmem | hmem
      · exact stepEvent_collapse s e hostId b hmem
      · exact ih _ hmem

/-! ## Claim C3: the topology threshold -/

/-- C3 — `updatePeerCount(n)` returns `mesh` exactly when `n + 1 ≤ threshold`
and `host` otherwise; with the default threshold 4, count 3 gives mesh and
count 4 gives host, and count 0 gives mesh for every threshold ≥ 1 (so in
particular always under the default configuration). -/
theorem updatePeerCount_threshold (tm : TopologyManager) (n : Nat) :
    ((updatePeerCount tm n).2 = .mesh ↔ n + 1 ≤ tm.meshThreshold) ∧
    ((updatePeerCount tm n).2 = .host ↔ tm.meshThreshold < n + 1) ∧
    (tm.meshThreshold = 4 →
      (updatePeerCount tm 3).2 = .mesh ∧ (updatePeerCount tm 4).2 = .host) ∧
    (1 ≤ tm.meshThreshold → (updatePeerCount tm 0).2 = .mesh) := by
  have hchar : ∀ m : Nat, (updatePeerCount tm m).2 =
      if m + 1 ≤ tm.meshThreshold then TopologyType.mesh else TopologyType.host :=
    fun m => rfl
  refine ⟨?_, ?_, ?_, ?_⟩
  · rw [hchar n]
    split_ifs with h
    · simp [h]
    · simp [h]
  · rw [hchar n]
    split_ifs with h
    · simp
      omega
    · simp
      omega
  · intro h4
    constructor
    · rw [hchar 3, h4]
      norm_num
    · rw [hchar 4, h4]
      norm_num
  · intro h1
    rw [hchar 0, if_pos h1]

/-! ## Claim C5: retry caps and backoff -/

/-- C5 (counterexample) — the close handler's delays for a host link are 2 s,
4 s and 6 s (`2000 * (retryCount + 1)`): they grow linearly, not by a
constant multiplier per attempt, so the backoff is not exponential (no ratio
`r` satisfies `delay k = 2000·rᵏ` for all three delays). -/
theorem retryDelay_not_geometric :
    retryDelay true 0 = 2000 ∧ retryDelay true 1 = 4000 ∧ retryDelay true 2 = 6000 ∧
    ¬ ∃ r : ℚ, ∀ k : Nat, k < 3 → (retryDelay true k : ℚ) = 2000 * r ^ k := by
  refine ⟨rfl, rfl, rfl, ?_⟩
  rintro ⟨r, hr⟩
  have h1 := hr 1 (by norm_num)
  have h2 := hr 2 (by norm_num)
  norm_num [retryDelay, onCloseDecision, maxRetries] at h1 h2
  have hr2 : r = 2 := by linarith
  rw [hr2] at h2
  norm_num at h2

/-- C5 (amended) — a link to the current host is retried exactly 3 times and
an ordinary peer link exactly 1 time, with linearly growing delays
2 s · attempt (2 s, 4 s, 6 s); the close after the last granted retry prunes
the peer (`removePeerConnection`), and the handler prunes exactly when the
stored `retryCount` has reached the cap (3 for a host link, 1 otherwise). -/
theorem closeRetryPolicy_spec :
    (∀ fuel : Nat, closeHistoryFrom true 0 (fuel + 4) =
      [.scheduleRetry 1 2000, .scheduleRetry 2 4000, .scheduleRetry 3 6000, .prune]) ∧
    (∀ fuel : Nat, closeHistoryFrom false 0 (fuel + 2) =
      [.scheduleRetry 1 2000, .prune]) ∧
    (∀ k : Nat, onCloseDecision true k = .prune ↔ 3 ≤ k) ∧
    (∀ k : Nat, onCloseDecision false k = .prune ↔ 1 ≤ k) := by
  have step : ∀ (b : Bool) (count fuel : Nat), count < maxRetries b →
      closeHistoryFrom b count (fuel + 1) =
        .scheduleRetry (count + 1) (2000 * (count + 1)) ::
          closeHistoryFrom b (count + 1) fuel := by
    intro b count fuel hlt
    simp [closeHistoryFrom, onCloseDecision, hlt]
  have stop : ∀ (b : Bool) (count fuel : Nat), ¬ count < maxRetries b →
      closeHistoryFrom b count (fuel + 1) = [.prune] := by
    intro b count fuel hge
    simp [closeHistoryFrom, onCloseDecision, hge]
  refine ⟨?_, ?_, ?_, ?_⟩
  · intro fuel
    rw [show fuel + 4 = fuel + 3 + 1 from rfl, step true 0 _ (by simp [maxRetries]),
      show fuel + 3 = fuel + 2 + 1 from rfl, step true 1 _ (by simp [maxRetries]),
      show fuel + 2 = fuel + 1 + 1 from rfl, step true 2 _ (by simp [maxRetries]),
      stop true 3 fuel (by simp [maxRetries])]
  · intro fuel
    rw [show fuel + 2 = fuel + 1 + 1 from rfl, step false 0 _ (by simp [maxRetries]),
      stop false 1 fuel (by simp [maxRetries])]
  · intro k
    rw [onCloseDecision]
    by_cases h : k < maxRetries true
    · rw [if_pos h]
      simp [maxRetries] at h
      simp
      omega
    · rw [if_neg h]
      simp [maxRetries] at h
      simp
      omega
  · intro k
    rw [onCloseDecision]
    by_cases h : k < maxRetries false
    · rw [if_pos h]
      simp [maxRetries] at h
      simp
      omega
    · rw [if_neg h]
      simp [maxRetries] at h
      simp
      omega

/-! # Witnesses -/

/-- C1 witness: the amended claim applied to the concrete state `cxElectState`
(self `"b"`, known peer `"a"`, no current host). -/
theorem mcElectHost_assigns_min_id_witness :
    ∃ m : String,
      (mcElectHost cxElectState).1.currentHostId = some m ∧
      m ∈ cxElectState.selfId :: cxElectState.peerUsernames ∧
      ∀ p ∈ cxElectState.selfId :: cxElectState.peerUsernames, jsStrLt p m = false :=
  mcElectHost_assigns_min_id cxElectState
    (by intro hh hc; simp [cxElectState] at hc)

/-- C2 witness: with distinct totals (tiebreakers 98 vs 97) the winner is the
same for both orders of `["b", "a"]`. -/
theorem electHost_order_invariant_witness :
    electHost ["b", "a"] noStats noCaps = electHost ["a", "b"] noStats noCaps := by
  apply electHost_order_invariant_of_distinct_totals noStats noCaps
    (List.Perm.swap "a" "b" [])
  have tba : scoreTiebreaker "a" = 97 := by decide
  have tbb : scoreTiebreaker "b" = 98 := by decide
  norm_num [scoresOf, List.pairwise_cons, scorePeer, scoreConnectionQuality,
    scoreNATType, scoreBandwidth, scorePlatform, orFalsy, noStats, noCaps, tba, tbb]

/-- C3 witness: the default-threshold boundary cases. -/
theorem updatePeerCount_threshold_witness :
    (updatePeerCount TopologyManager.init 3).2 = TopologyType.mesh ∧
    (updatePeerCount TopologyManager.init 4).2 = TopologyType.host :=
  (updatePeerCount_threshold TopologyManager.init 0).2.2.1 rfl

/-- C4 witness: an incumbent `"x"` absent from `["b", "a"]` is replaced by the
elected winner `"b"`. -/
theorem shouldReplaceHost_spec_witness :
    shouldReplaceHost "x" ["b", "a"] noStats noCaps 15 =
      .ok { shouldReplace := true, newHostId := some "b" } := by
  obtain ⟨w, hw, hr⟩ :=
    (shouldReplaceHost_spec "x" ["b", "a"] noStats noCaps 15).1 (by decide) (by decide)
  have tba : scoreTiebreaker "a" = 97 := by decide
  have tbb : scoreTiebreaker "b" = 98 := by decide
  have hb : electHost ["b", "a"] noStats noCaps = .ok "b" := by
    norm_num [electHost, scoresOf, sortByScoreDesc, insertDesc, scorePeer,
      scoreConnectionQuality, scoreNATType, scoreBandwidth, scorePlatform,
      orFalsy, noStats, noCaps, tba, tbb]
  rw [hb] at hw
  injection hw with hw2
  subst hw2
  exact hr

/-- C6 witness: the single-link properties at the concrete one-link state. -/
theorem registry_single_link_per_peer_witness :
    ((createPeerConnection "p" false cxCreateState).peers.map Prod.fst).count "p" = 1 ∧
    NodupKeys (stepEvent cxCreateState (MCEvent.peerJoined "q")).1.peers := by
  have hwf : NodupKeys cxCreateState.peers := by
    show (cxCreateState.peers.map Prod.fst).Nodup
    decide
  exact ⟨(registry_single_link_per_peer cxCreateState (MCEvent.peerJoined "q") "p" false).2.2.1 hwf,
    (registry_single_link_per_peer cxCreateState (MCEvent.peerJoined "q") "p" false).1 hwf⟩

/-- C7 witness: a trace in which the host link's `connected` event triggers
the star collapse, with the host link connected at that moment. -/
theorem starCollapse_witness :
    Obs.starCollapse "h" true ∈ (runEvents wCollapseState [MCEvent.connected "h"]).2 ∧
    true = true :=
  ⟨by decide,
   starCollapse_only_with_connected_host wCollapseState [MCEvent.connected "h"]
     "h" true (by decide)⟩

/-- C8 witness: a nonzero bandwidth below 100 kbps scores 0. -/
theorem scoreBandwidth_spec_witness : scoreBandwidth (some 50) = 0 :=
  scoreBandwidth_spec.2.2.1 50 (by norm_num) (by norm_num)

/-- C9 witness: host `"b"`, still known to node `"a"`, is kept. -/
theorem mcElectHost_keeps_present_host_witness :
    (mcElectHost wKeepHostState).1.currentHostId = some "b" :=
  (mcElectHost_keeps_present_host wKeepHostState).1 "b" rfl (by decide)

/-- C10 witness: the bounds at a concrete well-measured peer. -/
theorem scorePeer_in_range_witness :
    (0 ≤ (scorePeer "A" (some ⟨20, 0, 2, 3000⟩) (some ⟨.open_, .desktop, 3000⟩)).scores.connectionQuality ∧
      (scorePeer "A" (some ⟨20, 0, 2, 3000⟩) (some ⟨.open_, .desktop, 3000⟩)).scores.connectionQuality ≤ 100) ∧
    (0 ≤ (scorePeer "A" (some ⟨20, 0, 2, 3000⟩) (some ⟨.open_, .desktop, 3000⟩)).scores.natType ∧
      (scorePeer "A" (some ⟨20, 0, 2, 3000⟩) (some ⟨.open_, .desktop, 3000⟩)).scores.natType ≤ 100) ∧
    (0 ≤ (scorePeer "A" (some ⟨20, 0, 2, 3000⟩) (some ⟨.open_, .desktop, 3000⟩)).scores.bandwidth ∧
      (scorePeer "A" (some ⟨20, 0, 2, 3000⟩) (some ⟨.open_, .desktop, 3000⟩)).scores.bandwidth ≤ 100) ∧
    (0 ≤ (scorePeer "A" (some ⟨20, 0, 2, 3000⟩) (some ⟨.open_, .desktop, 3000⟩)).scores.platform ∧
      (scorePeer "A" (some ⟨20, 0, 2, 3000⟩) (some ⟨.open_, .desktop, 3000⟩)).scores.platform ≤ 100) ∧
    (∃ n : ℕ, (scorePeer "A" (some ⟨20, 0, 2, 3000⟩) (some ⟨.open_, .desktop, 3000⟩)).scores.tiebreaker = (n : ℚ) ∧ n ≤ 99) ∧
    (0 ≤ (scorePeer "A" (some ⟨20, 0, 2, 3000⟩) (some ⟨.open_, .desktop, 3000⟩)).totalScore ∧
      (scorePeer "A" (some ⟨20, 0, 2, 3000⟩) (some ⟨.open_, .desktop, 3000⟩)).totalScore ≤ 100) :=
  scorePeer_in_range "A" (some ⟨20, 0, 2, 3000⟩) (some ⟨.open_, .desktop, 3000⟩)
    (by intro s hs
        injection hs with h
        subst h
        refine ⟨by norm_num, by norm_num, by norm_num, by norm_num⟩)

end VoiceChat
